import Mathlib

/-!
Verification of the multiaddr codec (maddr): the `Segment`/`MultiAddr` data
model, the text codec (`display.rs` / `parse.rs`), and the binary codec
(`read.rs` / `write.rs`), shallowly embedded over `List Char` (strings) and
`List Nat` (byte streams).  The external collaborator codecs (varint,
multihash, base-58, and the standard textual IP-address forms) are modelled
from the spec's description of their interfaces and from the byte-level and
string-level facts pinned by the repository's own tests.
-/

namespace Maddr

/-- Errors of the binary reader (`read.rs`): end of stream inside a field
(`ErrorKind::UnexpectedEof` from `read_exact`), the "Invalid code" error and
the "Unexpected extra bytes" error (both `ErrorKind::Other`). -/
inductive ReadErr
  | unexpectedEof
  | invalidCode
  | extraBytes
deriving DecidableEq, Repr

/-- Errors of the text parser, mirroring `ParseSegmentError` in `parse.rs`:
`Str` carries a message, `Num` stands for `ParseIntError`, `Addr` for
`AddrParseError` and `Io` for `io::Error` (raised by the multihash
sub-decoder). -/
inductive ParseErr
  | str (msg : String)
  | num
  | addr
  | io
deriving DecidableEq, Repr

instance {e a : Type} [DecidableEq e] [DecidableEq a] : DecidableEq (Except e a) :=
  fun x y =>
    match x, y with
    | .error u, .error v =>
      if h : u = v then isTrue (by rw [h]) else isFalse (by simp [h])
    | .ok u, .ok v =>
      if h : u = v then isTrue (by rw [h]) else isFalse (by simp [h])
    | .error _, .ok _ => isFalse (by simp)
    | .ok _, .error _ => isFalse (by simp)

/-- Big-endian evaluation of a digit list in base `b` by a left fold, the way
the decimal / hexadecimal / base-58 text parsers accumulate their value. -/
def ofDigitsBE (b : Nat) (l : List Nat) : Nat :=
  l.foldl (fun acc d => acc * b + d) 0

theorem ofDigitsBE_nil (b : Nat) : ofDigitsBE b [] = 0 := rfl

theorem ofDigitsBE_go (b : Nat) (l : List Nat) : ∀ a : Nat,
    l.foldl (fun acc d => acc * b + d) a = a * b ^ l.length + ofDigitsBE b l := by
  induction l with
  | nil => intro a; simp [ofDigitsBE]
  | cons d t ih =>
    intro a
    have h1 : ofDigitsBE b (d :: t) = d * b ^ t.length + ofDigitsBE b t := by
      simp only [ofDigitsBE, List.foldl_cons]
      simpa using ih d
    simp only [List.foldl_cons, ih (a * b + d), h1, List.length_cons, pow_succ]
    ring

theorem ofDigitsBE_cons (b d : Nat) (l : List Nat) :
    ofDigitsBE b (d :: l) = d * b ^ l.length + ofDigitsBE b l := by
  simp only [ofDigitsBE, List.foldl_cons]
  rw [ofDigitsBE_go]
  simp [ofDigitsBE]

theorem ofDigitsBE_append_singleton (b d : Nat) (l : List Nat) :
    ofDigitsBE b (l ++ [d]) = ofDigitsBE b l * b + d := by
  simp [ofDigitsBE, List.foldl_append]

/-- A big-endian digit list evaluates to `Nat.ofDigits` of its reversal
(`Nat.ofDigits` is little-endian). -/
theorem ofDigitsBE_reverse (b : Nat) (l : List Nat) :
    ofDigitsBE b l.reverse = Nat.ofDigits b l := by
  induction l with
  | nil => simp [ofDigitsBE, Nat.ofDigits]
  | cons d t ih =>
    rw [List.reverse_cons, ofDigitsBE_append_singleton, ih, Nat.ofDigits_cons]
    ring

theorem ofDigitsBE_replicate_zero (b z : Nat) (l : List Nat) :
    ofDigitsBE b (List.replicate z 0 ++ l) = ofDigitsBE b l := by
  induction z with
  | zero => simp
  | succ z ih => simpa [ofDigitsBE, List.replicate_succ] using ih

/-- Modelled from the spec: the varint collaborator (`varmint` crate) writes an
unsigned value in base-128 groups, least significant group first, setting the
high bit on every byte except the last. -/
def encodeUVarint (n : Nat) : List Nat :=
  if n < 128 then [n]
  else (n % 128 + 128) :: encodeUVarint (n / 128)
termination_by n
decreasing_by exact Nat.div_lt_self (by omega) (by omega)

theorem encodeUVarint_ne_nil (n : Nat) : encodeUVarint n ≠ [] := by
  rw [encodeUVarint]
  split <;> simp

theorem encodeUVarint_lt_256 (n : Nat) : ∀ x ∈ encodeUVarint n, x < 256 := by
  induction n using Nat.strong_induction_on with
  | _ n ih =>
    rw [encodeUVarint]
    split
    · intro x hx
      simp only [List.mem_singleton] at hx
      omega
    · intro x hx
      simp only [List.mem_cons] at hx
      rcases hx with h | h
      · have := Nat.mod_lt n (y := 128) (by omega)
        omega
      · exact ih (n / 128) (Nat.div_lt_self (by omega) (by omega)) x h

/-- Modelled from the spec: the varint collaborator reads base-128 groups until
a byte with the high bit clear; end of stream inside a varint is an error. -/
def readUVarint : List Nat → Except ReadErr (Nat × List Nat)
  | [] => .error .unexpectedEof
  | b :: bs =>
    if b < 128 then .ok (b, bs)
    else match readUVarint bs with
      | .error e => .error e
      | .ok (n, rest) => .ok (b - 128 + 128 * n, rest)

theorem readUVarint_encode (n : Nat) (rest : List Nat) :
    readUVarint (encodeUVarint n ++ rest) = .ok (n, rest) := by
  induction n using Nat.strong_induction_on with
  | _ n ih =>
    rw [encodeUVarint]
    by_cases h : n < 128
    · simp [h, readUVarint]
    · simp only [if_neg h, List.cons_append, readUVarint,
        if_neg (by omega : ¬ n % 128 + 128 < 128)]
      rw [ih (n / 128) (Nat.div_lt_self (by omega) (by omega))]
      simp only [Except.ok.injEq, Prod.mk.injEq]
      exact ⟨by omega, trivial⟩

theorem readUVarint_suffix {bs r : List Nat} {n : Nat}
    (h : readUVarint bs = .ok (n, r)) : List.IsSuffix r bs ∧ r.length < bs.length := by
  induction bs generalizing n with
  | nil => simp [readUVarint] at h
  | cons b t ih =>
    simp only [readUVarint] at h
    by_cases hb : b < 128
    · simp only [if_pos hb, Except.ok.injEq, Prod.mk.injEq] at h
      refine ⟨h.2 ▸ ⟨[b], rfl⟩, ?_⟩
      rw [← h.2]
      simp
    · simp only [if_neg hb] at h
      cases hread : readUVarint t with
      | error e => rw [hread] at h; simp at h
      | ok p =>
        obtain ⟨m, r'⟩ := p
        rw [hread] at h
        simp only [Except.ok.injEq, Prod.mk.injEq] at h
        obtain ⟨hm, hr⟩ := h
        obtain ⟨hsuf, hlen⟩ := ih (n := m) (by rw [hread, hr])
        exact ⟨hsuf.trans ⟨[b], rfl⟩, by simp only [List.length_cons]; omega⟩

/-- `read_exact` into a `k`-byte buffer: take exactly `k` bytes or fail with
`UnexpectedEof`. -/
def readBytes (k : Nat) (bs : List Nat) : Except ReadErr (List Nat × List Nat) :=
  if bs.length < k then .error .unexpectedEof
  else .ok (bs.take k, bs.drop k)

theorem readBytes_exact {k : Nat} {pre : List Nat} (rest : List Nat)
    (h : pre.length = k) : readBytes k (pre ++ rest) = .ok (pre, rest) := by
  subst h
  rw [readBytes, if_neg (by simp only [List.length_append]; omega),
    List.take_left, List.drop_left]

/-- An IPv4 address: four octets, as `std::net::Ipv4Addr`. -/
structure Ipv4Addr where
  o0 : Nat
  o1 : Nat
  o2 : Nat
  o3 : Nat
deriving DecidableEq, Repr

/-- The octet bounds enforced by the Rust `u8` representation. -/
def Ipv4Addr.wf (ip : Ipv4Addr) : Prop :=
  ip.o0 < 256 ∧ ip.o1 < 256 ∧ ip.o2 < 256 ∧ ip.o3 < 256

instance (ip : Ipv4Addr) : Decidable ip.wf := by
  unfold Ipv4Addr.wf; infer_instance

/-- An IPv6 address as its eight 16-bit groups, as `std::net::Ipv6Addr::new`
takes them; the 16 network-order octets of the binary form are derived from
the groups. -/
structure Ipv6Addr where
  g0 : Nat
  g1 : Nat
  g2 : Nat
  g3 : Nat
  g4 : Nat
  g5 : Nat
  g6 : Nat
  g7 : Nat
deriving DecidableEq, Repr

def Ipv6Addr.groups (v : Ipv6Addr) : List Nat :=
  [v.g0, v.g1, v.g2, v.g3, v.g4, v.g5, v.g6, v.g7]

/-- The group bounds enforced by the Rust `u16` representation. -/
def Ipv6Addr.wf (v : Ipv6Addr) : Prop :=
  v.g0 < 65536 ∧ v.g1 < 65536 ∧ v.g2 < 65536 ∧ v.g3 < 65536 ∧
  v.g4 < 65536 ∧ v.g5 < 65536 ∧ v.g6 < 65536 ∧ v.g7 < 65536

instance (v : Ipv6Addr) : Decidable v.wf := by
  unfold Ipv6Addr.wf; infer_instance

/-- Modelled from the spec: the content-hash (multihash) collaborator value, a
self-describing digest — an algorithm tag plus digest bytes. -/
structure MultiHash where
  code : Nat
  digest : List Nat
deriving DecidableEq, Repr

/-- Digest bytes are `u8` values in the Rust representation. -/
def MultiHash.wf (h : MultiHash) : Prop := ∀ b ∈ h.digest, b < 256

instance (h : MultiHash) : Decidable h.wf :=
  List.decidableBAll _ h.digest

/-- Modelled from the spec: the multihash sub-encoder emits the algorithm tag
as a varint, the digest length as a varint, then the digest bytes — the layout
pinned by the byte-level test vectors in `read.rs` and `write.rs`
(`[0x12, 32, digest...]` for a sha2-256 hash). -/
def writeMultiHash (h : MultiHash) : List Nat :=
  encodeUVarint h.code ++ encodeUVarint h.digest.length ++ h.digest

/-- Modelled from the spec: `output_len()` of the `mhash` crate — the length in
bytes of the hash's own encoding (34 for a sha2-256 hash in the repository's
tests, matching the encoded tag, length and digest). -/
def MultiHash.output_len (h : MultiHash) : Nat := (writeMultiHash h).length

/-- Modelled from the spec: the multihash sub-decoder reads the algorithm tag
varint, the digest-length varint, then exactly that many digest bytes, erroring
on a truncated stream. -/
def readMultiHash (bs : List Nat) : Except ReadErr (MultiHash × List Nat) :=
  match readUVarint bs with
  | .error e => .error e
  | .ok (code, r1) =>
    match readUVarint r1 with
    | .error e => .error e
    | .ok (len, r2) =>
      match readBytes len r2 with
      | .error e => .error e
      | .ok (dig, r3) => .ok (⟨code, dig⟩, r3)

theorem readMultiHash_write (h : MultiHash) (rest : List Nat) :
    readMultiHash (writeMultiHash h ++ rest) = .ok (h, rest) := by
  rw [writeMultiHash, readMultiHash, List.append_assoc, List.append_assoc]
  simp only [readUVarint_encode, readBytes_exact rest rfl]

theorem writeMultiHash_lt_256 (h : MultiHash) (hwf : h.wf) :
    ∀ x ∈ writeMultiHash h, x < 256 := by
  intro x hx
  rw [writeMultiHash] at hx
  simp only [List.append_assoc, List.mem_append] at hx
  rcases hx with hx | hx | hx
  · exact encodeUVarint_lt_256 _ x hx
  · exact encodeUVarint_lt_256 _ x hx
  · exact hwf x hx

theorem writeMultiHash_ne_nil (h : MultiHash) : writeMultiHash h ≠ [] := by
  rw [writeMultiHash]
  intro hc
  rcases List.append_eq_nil.mp hc with ⟨hc1, _⟩
  rcases List.append_eq_nil.mp hc1 with ⟨hc2, _⟩
  exact encodeUVarint_ne_nil _ hc2

theorem readMultiHash_suffix {bs r : List Nat} {h : MultiHash}
    (hr : readMultiHash bs = .ok (h, r)) : List.IsSuffix r bs := by
  rw [readMultiHash] at hr
  cases h1 : readUVarint bs with
  | error e => simp [h1] at hr
  | ok p1 =>
    obtain ⟨code, r1⟩ := p1
    simp only [h1] at hr
    cases h2 : readUVarint r1 with
    | error e => simp [h2] at hr
    | ok p2 =>
      obtain ⟨len, r2⟩ := p2
      simp only [h2] at hr
      cases h3 : readBytes len r2 with
      | error e => simp [h3] at hr
      | ok p3 =>
        obtain ⟨dig, r3⟩ := p3
        simp only [h3, Except.ok.injEq, Prod.mk.injEq] at hr
        have hdrop : List.IsSuffix r3 r2 := by
          rw [readBytes] at h3
          split at h3
          · exact absurd h3 (by simp)
          · simp only [Except.ok.injEq, Prod.mk.injEq] at h3
            rw [← h3.2]
            exact List.drop_suffix len r2
        rw [← hr.2]
        exact (hdrop.trans (readUVarint_suffix h2).1).trans (readUVarint_suffix h1).1

/-- The possible multiaddr segments (`segment.rs`). -/
inductive Segment
  | Dccp (port : Nat)
  | Http
  | Https
  | IP4 (addr : Ipv4Addr)
  | IP6 (addr : Ipv6Addr)
  | Ipfs (hash : MultiHash)
  | Sctp (port : Nat)
  | Tcp (port : Nat)
  | Udp (port : Nat)
  | Udt
  | Utp
deriving DecidableEq, Repr

/-- The code used in the binary representation of this segment
(`Segment::code`). -/
def Segment.code : Segment → Nat
  | .Dccp _ => 33
  | .Http => 480
  | .Https => 443
  | .IP4 _ => 4
  | .IP6 _ => 41
  | .Ipfs _ => 421
  | .Sctp _ => 132
  | .Tcp _ => 6
  | .Udp _ => 17
  | .Udt => 301
  | .Utp => 302

/-- The name used in the string representation of this segment
(`Segment::name`), as its character list. -/
def Segment.name : Segment → List Char
  | .Dccp _ => ['d', 'c', 'c', 'p']
  | .Http => ['h', 't', 't', 'p']
  | .Https => ['h', 't', 't', 'p', 's']
  | .IP4 _ => ['i', 'p', '4']
  | .IP6 _ => ['i', 'p', '6']
  | .Ipfs _ => ['i', 'p', 'f', 's']
  | .Sctp _ => ['s', 'c', 't', 'p']
  | .Tcp _ => ['t', 'c', 'p']
  | .Udp _ => ['u', 'd', 'p']
  | .Udt => ['u', 'd', 't']
  | .Utp => ['u', 't', 'p']

/-- The variant tag of a segment, used to state that `code` and `name` depend
only on the variant. -/
def Segment.tag : Segment → Nat
  | .Dccp _ => 0
  | .Http => 1
  | .Https => 2
  | .IP4 _ => 3
  | .IP6 _ => 4
  | .Ipfs _ => 5
  | .Sctp _ => 6
  | .Tcp _ => 7
  | .Udp _ => 8
  | .Udt => 9
  | .Utp => 10

/-- The payload bounds enforced by the Rust types (`u16` ports, `u8` octets
and digest bytes). -/
def Segment.wf : Segment → Prop
  | .Dccp p => p < 65536
  | .Http => True
  | .Https => True
  | .IP4 ip => ip.wf
  | .IP6 v => v.wf
  | .Ipfs h => h.wf
  | .Sctp p => p < 65536
  | .Tcp p => p < 65536
  | .Udp p => p < 65536
  | .Udt => True
  | .Utp => True

instance : DecidablePred Segment.wf := fun s =>
  match s with
  | .Dccp _ => inferInstanceAs (Decidable (_ < _))
  | .Http => inferInstanceAs (Decidable True)
  | .Https => inferInstanceAs (Decidable True)
  | .IP4 ip => inferInstanceAs (Decidable ip.wf)
  | .IP6 v => inferInstanceAs (Decidable v.wf)
  | .Ipfs h => inferInstanceAs (Decidable h.wf)
  | .Sctp _ => inferInstanceAs (Decidable (_ < _))
  | .Tcp _ => inferInstanceAs (Decidable (_ < _))
  | .Udp _ => inferInstanceAs (Decidable (_ < _))
  | .Udt => inferInstanceAs (Decidable True)
  | .Utp => inferInstanceAs (Decidable True)

/-- A decoded multiaddr (`multiaddr.rs`): an ordered sequence of segments. -/
structure MultiAddr where
  segments : List Segment
deriving DecidableEq, Repr

def MultiAddr.wf (a : MultiAddr) : Prop := ∀ s ∈ a.segments, s.wf

instance (a : MultiAddr) : Decidable a.wf :=
  List.decidableBAll _ a.segments

/-- `MultiAddr::split_off_last`: `self.segments.pop().map(|tail| (self, tail))`
— `None` on the empty address, otherwise the address without its last segment
paired with that segment. -/
def MultiAddr.splitOffLast (a : MultiAddr) : Option (MultiAddr × Segment) :=
  match a.segments.getLast? with
  | none => none
  | some s => some (⟨a.segments.dropLast⟩, s)

/-- `impl Add for MultiAddr`: the left operand's segments followed by the
right operand's. -/
def MultiAddr.add (a b : MultiAddr) : MultiAddr :=
  ⟨a.segments ++ b.segments⟩

/-- Adding a single segment (`Add<T> where T: Into<MultiAddr>` with the
`From<Segment>` conversion, which wraps the segment in a one-element
address). -/
def MultiAddr.addSegment (a : MultiAddr) (s : Segment) : MultiAddr :=
  a.add ⟨[s]⟩

/-- `write_u16_be`: `[(val >> 8) & 0xFF, val & 0xFF]`. -/
def writeU16be (p : Nat) : List Nat := [p / 256 % 256, p % 256]

/-- The payload bytes a segment contributes after its code varint, following
the `match` in `WriteHelper::write_segment`: raw octets for IP addresses
(an `Ipv6Addr`'s sixteen network-order octets are its groups big-endian),
the big-endian port for the port variants, the declared hash length as a
varint followed by the hash sub-encoding for a content hash, and nothing for
the bare markers. -/
def segPayload : Segment → List Nat
  | .IP4 ip => [ip.o0, ip.o1, ip.o2, ip.o3]
  | .IP6 v => [v.g0 / 256 % 256, v.g0 % 256, v.g1 / 256 % 256, v.g1 % 256,
               v.g2 / 256 % 256, v.g2 % 256, v.g3 / 256 % 256, v.g3 % 256,
               v.g4 / 256 % 256, v.g4 % 256, v.g5 / 256 % 256, v.g5 % 256,
               v.g6 / 256 % 256, v.g6 % 256, v.g7 / 256 % 256, v.g7 % 256]
  | .Udp p => writeU16be p
  | .Dccp p => writeU16be p
  | .Sctp p => writeU16be p
  | .Tcp p => writeU16be p
  | .Ipfs h => encodeUVarint h.output_len ++ writeMultiHash h
  | .Udt => []
  | .Utp => []
  | .Http => []
  | .Https => []

/-- `WriteHelper::write_segment`: the code as a varint, then the payload. -/
def writeSegment (s : Segment) : List Nat :=
  encodeUVarint s.code ++ segPayload s

/-- `WriteMultiAddr::write_multiaddr`: each segment in order. -/
def writeMultiaddr (a : MultiAddr) : List Nat :=
  (a.segments.map writeSegment).flatten

/-- `read_u16_be`: two bytes, `(b0 << 8) + b1`. -/
def readU16be : List Nat → Except ReadErr (Nat × List Nat)
  | b0 :: b1 :: rest => .ok (b0 * 256 + b1, rest)
  | _ => .error .unexpectedEof

/-- `read_ipv4addr`: four raw octets. -/
def readIpv4Addr : List Nat → Except ReadErr (Ipv4Addr × List Nat)
  | a :: b :: c :: d :: rest => .ok (⟨a, b, c, d⟩, rest)
  | _ => .error .unexpectedEof

/-- `read_ipv6addr`: sixteen raw octets, network order, combined into eight
groups as `Ipv6Addr::from` does. -/
def readIpv6Addr : List Nat → Except ReadErr (Ipv6Addr × List Nat)
  | o0 :: o1 :: o2 :: o3 :: o4 :: o5 :: o6 :: o7 :: o8 :: o9 :: o10 :: o11 ::
      o12 :: o13 :: o14 :: o15 :: rest =>
    .ok (⟨o0 * 256 + o1, o2 * 256 + o3, o4 * 256 + o5, o6 * 256 + o7,
          o8 * 256 + o9, o10 * 256 + o11, o12 * 256 + o13, o14 * 256 + o15⟩, rest)
  | _ => .error .unexpectedEof

/-- The code-421 branch of `ReadHelper::read_segment`: read the declared hash
length as a varint, bound the stream to that many bytes with
`io::Read::take`, run the multihash sub-decoder inside the bound, then
`check_empty` the bounded reader.  That `check_empty` reads one byte through
the `take` wrapper, so it yields 0 (success) when either the declared window
is used up or the underlying stream is exhausted, and otherwise fails with
"Unexpected extra bytes".  The sub-decoder sees only `r1.take len`, the
up-to-`len`-byte window the `take` wrapper exposes. -/
def readIpfsPayload (bs : List Nat) : Except ReadErr (Segment × List Nat) :=
  match readUVarint bs with
  | .error e => .error e
  | .ok (len, r1) =>
    match readMultiHash (r1.take len) with
    | .error e => .error e
    | .ok (h, winRest) =>
      let consumed := (r1.take len).length - winRest.length
      if len - consumed = 0 then .ok (.Ipfs h, r1.drop consumed)
      else if r1.drop consumed = [] then .ok (.Ipfs h, r1.drop consumed)
      else .error .extraBytes

/-- `ReadHelper::read_segment`, dispatching on the wire code; an unknown code
fails with "Invalid code". -/
def readSegment (code : Nat) (bs : List Nat) : Except ReadErr (Segment × List Nat) :=
  match code with
  | 4 =>
    match readIpv4Addr bs with
    | .error e => .error e
    | .ok (ip, rest) => .ok (.IP4 ip, rest)
  | 6 =>
    match readU16be bs with
    | .error e => .error e
    | .ok (p, rest) => .ok (.Tcp p, rest)
  | 17 =>
    match readU16be bs with
    | .error e => .error e
    | .ok (p, rest) => .ok (.Udp p, rest)
  | 33 =>
    match readU16be bs with
    | .error e => .error e
    | .ok (p, rest) => .ok (.Dccp p, rest)
  | 41 =>
    match readIpv6Addr bs with
    | .error e => .error e
    | .ok (v, rest) => .ok (.IP6 v, rest)
  | 132 =>
    match readU16be bs with
    | .error e => .error e
    | .ok (p, rest) => .ok (.Sctp p, rest)
  | 301 => .ok (.Udt, bs)
  | 302 => .ok (.Utp, bs)
  | 421 => readIpfsPayload bs
  | 443 => .ok (.Https, bs)
  | 480 => .ok (.Http, bs)
  | _ => .error .invalidCode

/-- `try_read_segment`: an empty stream before any byte of the code varint is
the clean end-of-address signal; otherwise read the code varint and then the
segment. -/
def tryReadSegment : List Nat → Except ReadErr (Option (Segment × List Nat))
  | [] => .ok none
  | b :: bs =>
    match readUVarint (b :: bs) with
    | .error e => .error e
    | .ok (code, r) =>
      match readSegment code r with
      | .error e => .error e
      | .ok (s, r2) => .ok (some (s, r2))

/-- The segment-reading loop of `read_multiaddr`, with explicit fuel.  The
loop consumes at least one byte per iteration, so any fuel above the stream
length is enough; `readSegmentsF_fuel` below shows the result does not depend
on the fuel once it is sufficient. -/
def readSegmentsF : Nat → List Nat → Except ReadErr (List Segment × List Nat)
  | 0, _ => .error .unexpectedEof
  | fuel + 1, bs =>
    match tryReadSegment bs with
    | .error e => .error e
    | .ok none => .ok ([], bs)
    | .ok (some (s, r)) =>
      match readSegmentsF fuel r with
      | .error e => .error e
      | .ok (ss, r2) => .ok (s :: ss, r2)

/-- `check_empty` on the outer stream: succeed only if no bytes remain,
otherwise the "Unexpected extra bytes" error. -/
def checkEmpty (bs : List Nat) : Except ReadErr Unit :=
  if bs = [] then .ok () else .error .extraBytes

/-- `ReadMultiAddr::read_multiaddr`: read segments until the clean
end-of-stream signal, then `check_empty` the stream. -/
def readMultiaddr (bs : List Nat) : Except ReadErr MultiAddr :=
  match readSegmentsF (bs.length + 1) bs with
  | .error e => .error e
  | .ok (ss, rest) =>
    match checkEmpty rest with
    | .error e => .error e
    | .ok _ => .ok ⟨ss⟩

theorem readU16be_write (p : Nat) (hp : p < 65536) (rest : List Nat) :
    readU16be (writeU16be p ++ rest) = .ok (p, rest) := by
  simp only [writeU16be, List.cons_append, List.nil_append, readU16be,
    Except.ok.injEq, Prod.mk.injEq, and_true]
  omega

theorem readSegment_writePayload (s : Segment) (hwf : s.wf) (rest : List Nat) :
    readSegment s.code (segPayload s ++ rest) = .ok (s, rest) := by
  cases s with
  | IP4 ip =>
    simp [readSegment, Segment.code, segPayload, readIpv4Addr]
  | IP6 v =>
    obtain ⟨g0, g1, g2, g3, g4, g5, g6, g7⟩ := v
    replace hwf : g0 < 65536 ∧ g1 < 65536 ∧ g2 < 65536 ∧ g3 < 65536 ∧
        g4 < 65536 ∧ g5 < 65536 ∧ g6 < 65536 ∧ g7 < 65536 := hwf
    obtain ⟨h0, h1, h2, h3, h4, h5, h6, h7⟩ := hwf
    simp only [readSegment, Segment.code, segPayload, List.cons_append,
      List.nil_append, readIpv6Addr, Except.ok.injEq, Prod.mk.injEq,
      Segment.IP6.injEq, Ipv6Addr.mk.injEq, and_true]
    omega
  | Tcp p =>
    simp only [readSegment, Segment.code, segPayload, readU16be_write p hwf rest]
  | Udp p =>
    simp only [readSegment, Segment.code, segPayload, readU16be_write p hwf rest]
  | Dccp p =>
    simp only [readSegment, Segment.code, segPayload, readU16be_write p hwf rest]
  | Sctp p =>
    simp only [readSegment, Segment.code, segPayload, readU16be_write p hwf rest]
  | Ipfs h =>
    simp only [readSegment, Segment.code, segPayload, readIpfsPayload,
      List.append_assoc, readUVarint_encode]
    have hlen : (writeMultiHash h ++ rest).take h.output_len = writeMultiHash h := by
      rw [MultiHash.output_len, List.take_left]
    rw [hlen]
    have hmh : readMultiHash (writeMultiHash h) = .ok (h, []) := by
      have := readMultiHash_write h []
      rwa [List.append_nil] at this
    rw [hmh]
    have hwin : (writeMultiHash h).length - ([] : List Nat).length = h.output_len := by
      simp [MultiHash.output_len]
    simp only [List.length_nil, Nat.sub_zero, MultiHash.output_len]
    rw [if_pos (by omega), List.drop_left]
  | Udt => simp [readSegment, Segment.code, segPayload]
  | Utp => simp [readSegment, Segment.code, segPayload]
  | Http => simp [readSegment, Segment.code, segPayload]
  | Https => simp [readSegment, Segment.code, segPayload]

theorem writeSegment_ne_nil (s : Segment) : writeSegment s ≠ [] := by
  rw [writeSegment]
  intro hc
  exact encodeUVarint_ne_nil _ (List.append_eq_nil.mp hc).1

theorem tryReadSegment_eq_of_ne_nil (bs : List Nat) (h : bs ≠ []) :
    tryReadSegment bs =
      match readUVarint bs with
      | .error e => .error e
      | .ok (code, r) =>
        match readSegment code r with
        | .error e => .error e
        | .ok (s, r2) => .ok (some (s, r2)) := by
  cases bs with
  | nil => exact absurd rfl h
  | cons b t => rfl

theorem tryReadSegment_write (s : Segment) (hwf : s.wf) (rest : List Nat) :
    tryReadSegment (writeSegment s ++ rest) = .ok (some (s, rest)) := by
  have h1 : readUVarint (writeSegment s ++ rest) = .ok (s.code, segPayload s ++ rest) := by
    rw [writeSegment, List.append_assoc]
    exact readUVarint_encode _ _
  rw [tryReadSegment_eq_of_ne_nil _
    (fun hc => writeSegment_ne_nil s (List.append_eq_nil.mp hc).1), h1]
  simp only [readSegment_writePayload s hwf rest]

theorem readU16be_suffix {bs r : List Nat} {p : Nat}
    (h : readU16be bs = .ok (p, r)) : List.IsSuffix r bs := by
  unfold readU16be at h
  split at h
  next b0 b1 rest =>
    simp only [Except.ok.injEq, Prod.mk.injEq] at h
    exact h.2 ▸ ⟨[b0, b1], rfl⟩
  next => simp at h

theorem readIpv4Addr_suffix {bs r : List Nat} {ip : Ipv4Addr}
    (h : readIpv4Addr bs = .ok (ip, r)) : List.IsSuffix r bs := by
  unfold readIpv4Addr at h
  split at h
  next a b c d rest =>
    simp only [Except.ok.injEq, Prod.mk.injEq] at h
    exact h.2 ▸ ⟨[a, b, c, d], rfl⟩
  next => simp at h

theorem readIpv6Addr_suffix {bs r : List Nat} {v : Ipv6Addr}
    (h : readIpv6Addr bs = .ok (v, r)) : List.IsSuffix r bs := by
  unfold readIpv6Addr at h
  split at h
  next o0 o1 o2 o3 o4 o5 o6 o7 o8 o9 o10 o11 o12 o13 o14 o15 rest =>
    simp only [Except.ok.injEq, Prod.mk.injEq] at h
    exact h.2 ▸ ⟨[o0, o1, o2, o3, o4, o5, o6, o7, o8, o9, o10, o11, o12, o13, o14, o15], rfl⟩
  next => simp at h

theorem readIpfsPayload_suffix {bs r : List Nat} {s : Segment}
    (h : readIpfsPayload bs = .ok (s, r)) : List.IsSuffix r bs := by
  rw [readIpfsPayload] at h
  cases h1 : readUVarint bs with
  | error e => simp [h1] at h
  | ok p1 =>
    obtain ⟨len, r1⟩ := p1
    simp only [h1] at h
    cases h2 : readMultiHash (r1.take len) with
    | error e => simp [h2] at h
    | ok p2 =>
      obtain ⟨mh, winRest⟩ := p2
      simp only [h2] at h
      split at h
      · simp only [Except.ok.injEq, Prod.mk.injEq] at h
        exact h.2 ▸ (List.drop_suffix _ _).trans (readUVarint_suffix h1).1
      · split at h
        · simp only [Except.ok.injEq, Prod.mk.injEq] at h
          exact h.2 ▸ (List.drop_suffix _ _).trans (readUVarint_suffix h1).1
        · simp at h

theorem readSegment_suffix {code : Nat} {bs r : List Nat} {s : Segment}
    (h : readSegment code bs = .ok (s, r)) : List.IsSuffix r bs := by
  unfold readSegment at h
  split at h
  · cases h1 : readIpv4Addr bs with
    | error e => simp [h1] at h
    | ok p =>
      obtain ⟨ip, rest⟩ := p
      simp only [h1, Except.ok.injEq, Prod.mk.injEq] at h
      exact h.2 ▸ readIpv4Addr_suffix h1
  · cases h1 : readU16be bs with
    | error e => simp [h1] at h
    | ok p =>
      obtain ⟨q, rest⟩ := p
      simp only [h1, Except.ok.injEq, Prod.mk.injEq] at h
      exact h.2 ▸ readU16be_suffix h1
  · cases h1 : readU16be bs with
    | error e => simp [h1] at h
    | ok p =>
      obtain ⟨q, rest⟩ := p
      simp only [h1, Except.ok.injEq, Prod.mk.injEq] at h
      exact h.2 ▸ readU16be_suffix h1
  · cases h1 : readU16be bs with
    | error e => simp [h1] at h
    | ok p =>
      obtain ⟨q, rest⟩ := p
      simp only [h1, Except.ok.injEq, Prod.mk.injEq] at h
      exact h.2 ▸ readU16be_suffix h1
  · cases h1 : readIpv6Addr bs with
    | error e => simp [h1] at h
    | ok p =>
      obtain ⟨v, rest⟩ := p
      simp only [h1, Except.ok.injEq, Prod.mk.injEq] at h
      exact h.2 ▸ readIpv6Addr_suffix h1
  · cases h1 : readU16be bs with
    | error e => simp [h1] at h
    | ok p =>
      obtain ⟨q, rest⟩ := p
      simp only [h1, Except.ok.injEq, Prod.mk.injEq] at h
      exact h.2 ▸ readU16be_suffix h1
  · simp only [Except.ok.injEq, Prod.mk.injEq] at h
    exact h.2 ▸ ⟨[], rfl⟩
  · simp only [Except.ok.injEq, Prod.mk.injEq] at h
    exact h.2 ▸ ⟨[], rfl⟩
  · exact readIpfsPayload_suffix h
  · simp only [Except.ok.injEq, Prod.mk.injEq] at h
    exact h.2 ▸ ⟨[], rfl⟩
  · simp only [Except.ok.injEq, Prod.mk.injEq] at h
    exact h.2 ▸ ⟨[], rfl⟩
  · simp at h

theorem tryReadSegment_consumes {bs r : List Nat} {s : Segment}
    (h : tryReadSegment bs = .ok (some (s, r))) : r.length < bs.length := by
  cases bs with
  | nil => simp [tryReadSegment] at h
  | cons b t =>
    rw [tryReadSegment] at h
    cases h1 : readUVarint (b :: t) with
    | error e => simp [h1] at h
    | ok p =>
      obtain ⟨code, r1⟩ := p
      simp only [h1] at h
      cases h2 : readSegment code r1 with
      | error e => simp [h2] at h
      | ok p2 =>
        obtain ⟨s2, r2⟩ := p2
        simp only [h2, Except.ok.injEq, Option.some.injEq, Prod.mk.injEq] at h
        have hs := (readSegment_suffix h2).length_le
        have hv := (readUVarint_suffix h1).2
        rw [← h.2]
        omega

theorem readSegmentsF_fuel : ∀ (f1 f2 : Nat) (bs : List Nat), bs.length < f1 →
    bs.length < f2 → readSegmentsF f1 bs = readSegmentsF f2 bs := by
  intro f1
  induction f1 with
  | zero => intro f2 bs hb1 _; omega
  | succ a ih =>
    intro f2 bs hb1 hb2
    cases f2 with
    | zero => omega
    | succ b =>
      cases ht : tryReadSegment bs with
      | error e => simp only [readSegmentsF, ht]
      | ok o =>
        cases o with
        | none => simp only [readSegmentsF, ht]
        | some p =>
          obtain ⟨s, r⟩ := p
          have hc := tryReadSegment_consumes ht
          simp only [readSegmentsF, ht]
          rw [ih b r (by omega) (by omega)]

/-- Reading a stream that starts with the encoding of a segment list parses
exactly those segments and continues on the remainder of the stream. -/
theorem readSegmentsF_write (segs : List Segment) (rest : List Nat)
    (hwf : ∀ s ∈ segs, s.wf) :
    readSegmentsF (((segs.map writeSegment).flatten ++ rest).length + 1)
        ((segs.map writeSegment).flatten ++ rest) =
      match readSegmentsF (rest.length + 1) rest with
      | .error e => .error e
      | .ok (ss, r) => .ok (segs ++ ss, r) := by
  induction segs with
  | nil =>
    simp only [List.map_nil, List.flatten_nil, List.nil_append]
    cases h : readSegmentsF (rest.length + 1) rest with
    | error e => rfl
    | ok p => obtain ⟨ss, r⟩ := p; simp
  | cons s ss ih =>
    have hws : ∀ t ∈ ss, t.wf := fun t ht => hwf t (List.mem_cons_of_mem s ht)
    have hs : s.wf := hwf s (List.mem_cons_self s ss)
    simp only [List.map_cons, List.flatten_cons, List.append_assoc]
    rw [readSegmentsF]
    simp only [tryReadSegment_write s hs ((ss.map writeSegment).flatten ++ rest)]
    have hsl : 0 < (writeSegment s).length := List.length_pos.mpr (writeSegment_ne_nil s)
    rw [readSegmentsF_fuel ((writeSegment s ++ ((ss.map writeSegment).flatten ++ rest)).length)
      (((ss.map writeSegment).flatten ++ rest).length + 1)
      ((ss.map writeSegment).flatten ++ rest)
      (by simp only [List.length_append]; omega) (by omega)]
    rw [ih hws]
    cases h : readSegmentsF (rest.length + 1) rest with
    | error e => rfl
    | ok p => obtain ⟨ss2, r⟩ := p; simp

theorem readMultiaddr_write (a : MultiAddr) (hwf : a.wf) :
    readMultiaddr (writeMultiaddr a) = .ok a := by
  have h := readSegmentsF_write a.segments [] hwf
  rw [List.append_nil] at h
  have h0 : readSegmentsF (([] : List Nat).length + 1) [] = .ok ([], []) := rfl
  rw [h0] at h
  simp only [List.append_nil] at h
  rw [readMultiaddr, writeMultiaddr, h]
  rfl

/-- The decimal digit characters the standard integer formatter emits. -/
def decDigitChar (d : Nat) : Char := Char.ofNat (48 + d)

def decVal (c : Char) : Nat := c.toNat - 48

def isDecDigit (c : Char) : Bool := 48 ≤ c.toNat && c.toNat ≤ 57

/-- Modelled from the spec: the standard decimal rendering of an unsigned
integer — most significant digit first, "0" for zero. -/
def renderDec (n : Nat) : List Char :=
  if n = 0 then ['0'] else ((Nat.digits 10 n).reverse).map decDigitChar

/-- A nonempty all-digit token evaluated most significant digit first; `none`
on anything else. -/
def parseDecNat (cs : List Char) : Option Nat :=
  if cs.isEmpty || !(cs.all isDecDigit) then none
  else some (ofDigitsBE 10 (cs.map decVal))

/-- Modelled from the spec: `u16::from_str` as used for port tokens — digits
evaluating to at most 65535; anything else is a `ParseIntError`. -/
def parseU16 (cs : List Char) : Except ParseErr Nat :=
  match parseDecNat cs with
  | none => .error .num
  | some v => if v < 65536 then .ok v else .error .num

/-- The lowercase hexadecimal digit characters the standard formatter
emits. -/
def hexDigitChar (d : Nat) : Char :=
  if d < 10 then Char.ofNat (48 + d) else Char.ofNat (87 + d)

def hexVal (c : Char) : Nat :=
  if c.toNat ≤ 57 then c.toNat - 48
  else if c.toNat ≤ 70 then c.toNat - 55
  else c.toNat - 87

def isHexDigit (c : Char) : Bool :=
  (48 ≤ c.toNat && c.toNat ≤ 57) || (65 ≤ c.toNat && c.toNat ≤ 70) ||
    (97 ≤ c.toNat && c.toNat ≤ 102)

/-- Modelled from the spec: the standard lowercase hexadecimal rendering of a
16-bit group — most significant digit first, no leading zeros, "0" for
zero. -/
def renderHex (n : Nat) : List Char :=
  if n = 0 then ['0'] else ((Nat.digits 16 n).reverse).map hexDigitChar

/-- One to four hexadecimal digits (either case) evaluated most significant
digit first; `none` on anything else. -/
def parseHexGroup (cs : List Char) : Option Nat :=
  if cs.isEmpty || 4 < cs.length || !(cs.all isHexDigit) then none
  else some (ofDigitsBE 16 (cs.map hexVal))

/-- `str::split` on a single character: one piece more than the number of
separators; splitting the empty string yields one empty piece. -/
def splitChar (sep : Char) : List Char → List (List Char)
  | [] => [[]]
  | c :: cs =>
    if c = sep then [] :: splitChar sep cs
    else match splitChar sep cs with
      | [] => [[c]]
      | t :: ts => (c :: t) :: ts

/-- Join pieces with a separator: the shape of the rendered payloads and
addresses. -/
def joinSep (sep : Char) : List (List Char) → List Char
  | [] => []
  | [p] => p
  | p :: q :: ps => p ++ sep :: joinSep sep (q :: ps)

/-- Modelled from the spec: `Ipv4Addr`'s standard dotted-decimal text form. -/
def renderIp4 (ip : Ipv4Addr) : List Char :=
  renderDec ip.o0 ++ '.' :: renderDec ip.o1 ++ '.' :: renderDec ip.o2 ++
    '.' :: renderDec ip.o3

/-- Modelled from the spec: standard textual IPv4 parsing — four dot-separated
decimal octets, each at most 255; failures are `AddrParseError`s. -/
def parseIp4 (cs : List Char) : Except ParseErr Ipv4Addr :=
  match splitChar '.' cs with
  | [p0, p1, p2, p3] =>
    match parseDecNat p0, parseDecNat p1, parseDecNat p2, parseDecNat p3 with
    | some a, some b, some c, some d =>
      if a < 256 ∧ b < 256 ∧ c < 256 ∧ d < 256 then .ok ⟨a, b, c, d⟩
      else .error .addr
    | _, _, _, _ => .error .addr
  | _ => .error .addr

/-- Modelled from the spec: a standard textual form of an `Ipv6Addr` — its
eight groups in lowercase hexadecimal separated by colons.  The standard
renderer may instead compress a zero run; the spec's round-trip law explicitly
disregards such normalization differences, so the model renders the full
form. -/
def renderIp6 (v : Ipv6Addr) : List Char :=
  joinSep ':' (v.groups.map renderHex)

/-- Modelled from the spec: standard textual IPv6 parsing, restricted to the
full form the model renders — eight colon-separated groups of one to four hex
digits; failures are `AddrParseError`s. -/
def parseIp6 (cs : List Char) : Except ParseErr Ipv6Addr :=
  match splitChar ':' cs with
  | [p0, p1, p2, p3, p4, p5, p6, p7] =>
    match parseHexGroup p0, parseHexGroup p1, parseHexGroup p2, parseHexGroup p3,
          parseHexGroup p4, parseHexGroup p5, parseHexGroup p6, parseHexGroup p7 with
    | some g0, some g1, some g2, some g3, some g4, some g5, some g6, some g7 =>
      .ok ⟨g0, g1, g2, g3, g4, g5, g6, g7⟩
    | _, _, _, _, _, _, _, _ => .error .addr
  | _ => .error .addr

/-- The base-58 alphabet (Bitcoin variant) used by the base-58
collaborator. -/
def b58Alphabet : List Char :=
  "123456789ABCDEFGHJKLMNPQRSTUVWXYZabcdefghijkmnopqrstuvwxyz".toList

def b58Digit (d : Nat) : Char := b58Alphabet.getD d '1'

def b58Val (c : Char) : Nat := b58Alphabet.findIdx (fun x => x == c)

/-- Modelled from the spec: the base-58 encoder — one leading `'1'` per
leading zero byte, then the big-endian base-58 digits of the byte string's
value. -/
def encode58 (bs : List Nat) : List Char :=
  List.replicate (bs.takeWhile (fun b => b == 0)).length '1' ++
    ((Nat.digits 58 (ofDigitsBE 256 bs)).reverse).map b58Digit

/-- Modelled from the spec: the base-58 decoder — reject any character outside
the alphabet, count leading `'1'`s as leading zero bytes, and append the
big-endian base-256 bytes of the digit string's value.  The `supra_base58`
failure is lifted to `ParseSegmentError::Str("unknown")` by the `From<()>`
conversion in `parse.rs`. -/
def decode58 (cs : List Char) : Except ParseErr (List Nat) :=
  if cs.all (fun c => b58Alphabet.contains c) then
    .ok (List.replicate (cs.takeWhile (fun c => c == '1')).length 0 ++
      (Nat.digits 256 (ofDigitsBE 58 (cs.map b58Val))).reverse)
  else .error (.str "unknown")

/-- `impl Display for Segment`: `/name`, then `/payload` for the payload
variants — the standard text forms for addresses and ports, base-58 of the
hash sub-encoding for a content hash, nothing for the bare markers. -/
def renderSegment (s : Segment) : List Char :=
  '/' :: s.name ++
    match s with
    | .IP4 ip => '/' :: renderIp4 ip
    | .IP6 v => '/' :: renderIp6 v
    | .Udp p => '/' :: renderDec p
    | .Dccp p => '/' :: renderDec p
    | .Sctp p => '/' :: renderDec p
    | .Tcp p => '/' :: renderDec p
    | .Ipfs h => '/' :: encode58 (writeMultiHash h)
    | .Udt => []
    | .Utp => []
    | .Http => []
    | .Https => []

/-- `impl Display for MultiAddr`: the segments' renderings concatenated; the
empty address renders to the empty string. -/
def renderMultiaddr (a : MultiAddr) : List Char :=
  (a.segments.map renderSegment).flatten

/-- The observable outcomes of `MultiAddr::from_str`: a Rust panic (from the
byte-range index `&s[0..1]`), a `ParseSegmentError`, or a parsed address. -/
inductive ParseOutcome
  | panic
  | err (e : ParseErr)
  | ok (a : MultiAddr)
deriving DecidableEq, Repr

/-- `segment_from_strs` merged with the `from_str` token loop: consume the
name token (dispatching in the source's arm order: ip4, ip6, udp, dccp, sctp,
tcp, ipfs, udt, utp, http, https), then its payload token if the variant has
one ("missing segment data" when the iterator is exhausted), and continue on
the remaining tokens; an unknown name token fails with "unrecognised segment
type ..." naming the token, and an exhausted token iterator ends the loop. -/
def parseSegments : List (List Char) → Except ParseErr (List Segment)
  | [] => .ok []
  | tok :: rest =>
    if tok = ['i', 'p', '4'] then
      match rest with
      | [] => .error (.str "missing segment data")
      | p :: rest2 =>
        match parseIp4 p with
        | .error e => .error e
        | .ok ip =>
          match parseSegments rest2 with
          | .error e => .error e
          | .ok segs => .ok (.IP4 ip :: segs)
    else if tok = ['i', 'p', '6'] then
      match rest with
      | [] => .error (.str "missing segment data")
      | p :: rest2 =>
        match parseIp6 p with
        | .error e => .error e
        | .ok v =>
          match parseSegments rest2 with
          | .error e => .error e
          | .ok segs => .ok (.IP6 v :: segs)
    else if tok = ['u', 'd', 'p'] then
      match rest with
      | [] => .error (.str "missing segment data")
      | p :: rest2 =>
        match parseU16 p with
        | .error e => .error e
        | .ok q =>
          match parseSegments rest2 with
          | .error e => .error e
          | .ok segs => .ok (.Udp q :: segs)
    else if tok = ['d', 'c', 'c', 'p'] then
      match rest with
      | [] => .error (.str "missing segment data")
      | p :: rest2 =>
        match parseU16 p with
        | .error e => .error e
        | .ok q =>
          match parseSegments rest2 with
          | .error e => .error e
          | .ok segs => .ok (.Dccp q :: segs)
    else if tok = ['s', 'c', 't', 'p'] then
      match rest with
      | [] => .error (.str "missing segment data")
      | p :: rest2 =>
        match parseU16 p with
        | .error e => .error e
        | .ok q =>
          match parseSegments rest2 with
          | .error e => .error e
          | .ok segs => .ok (.Sctp q :: segs)
    else if tok = ['t', 'c', 'p'] then
      match rest with
      | [] => .error (.str "missing segment data")
      | p :: rest2 =>
        match parseU16 p with
        | .error e => .error e
        | .ok q =>
          match parseSegments rest2 with
          | .error e => .error e
          | .ok segs => .ok (.Tcp q :: segs)
    else if tok = ['i', 'p', 'f', 's'] then
      match rest with
      | [] => .error (.str "missing segment data")
      | p :: rest2 =>
        match decode58 p with
        | .error e => .error e
        | .ok bytes =>
          match readMultiHash bytes with
          | .error _ => .error .io
          | .ok (h, _) =>
            match parseSegments rest2 with
            | .error e => .error e
            | .ok segs => .ok (.Ipfs h :: segs)
    else if tok = ['u', 'd', 't'] then
      match parseSegments rest with
      | .error e => .error e
      | .ok segs => .ok (.Udt :: segs)
    else if tok = ['u', 't', 'p'] then
      match parseSegments rest with
      | .error e => .error e
      | .ok segs => .ok (.Utp :: segs)
    else if tok = ['h', 't', 't', 'p'] then
      match parseSegments rest with
      | .error e => .error e
      | .ok segs => .ok (.Http :: segs)
    else if tok = ['h', 't', 't', 'p', 's'] then
      match parseSegments rest with
      | .error e => .error e
      | .ok segs => .ok (.Https :: segs)
    else .error (.str ("unrecognised segment type " ++ String.mk tok))

/-- `impl FromStr for MultiAddr`: evaluate the byte slice `&s[0..1]` — a panic
when the string is empty or its first character occupies more than one UTF-8
byte — compare it with "/", then split the remainder on '/' and run the
segment loop. -/
def fromStr (s : List Char) : ParseOutcome :=
  match s with
  | [] => .panic
  | c :: rest =>
    if 128 ≤ c.toNat then .panic
    else if c ≠ '/' then .err (.str "didn\x27t start with /")
    else
      match parseSegments (splitChar '/' rest) with
      | .error e => .err e
      | .ok segs => .ok ⟨segs⟩

theorem ofDigitsBE_eq_ofDigits_reverse (b : Nat) (l : List Nat) :
    ofDigitsBE b l = Nat.ofDigits b l.reverse := by
  have := ofDigitsBE_reverse b l.reverse
  rwa [List.reverse_reverse] at this

theorem dec_digit_ok : ∀ d < 10, decVal (decDigitChar d) = d ∧
    isDecDigit (decDigitChar d) = true := by decide

theorem renderDec_ne_nil (n : Nat) : renderDec n ≠ [] := by
  rw [renderDec]
  split
  · simp
  · simp [Nat.digits_ne_nil_iff_ne_zero, *]

theorem renderDec_digits (n : Nat) : ∀ c ∈ renderDec n, isDecDigit c = true := by
  rw [renderDec]
  split
  · intro c hc
    simp only [List.mem_singleton] at hc
    subst hc
    decide
  · intro c hc
    simp only [List.mem_map, List.mem_reverse] at hc
    obtain ⟨d, hdm, rfl⟩ := hc
    exact (dec_digit_ok d (Nat.digits_lt_base (by omega) hdm)).2

theorem parseDecNat_renderDec (n : Nat) : parseDecNat (renderDec n) = some n := by
  have hcond : ((renderDec n).isEmpty || !((renderDec n).all isDecDigit)) = false := by
    rw [Bool.or_eq_false_iff]
    constructor
    · rw [List.isEmpty_eq_false_iff_exists_mem]
      rcases List.exists_mem_of_ne_nil _ (renderDec_ne_nil n) with ⟨c, hc⟩
      exact ⟨c, hc⟩
    · rw [Bool.not_eq_false']
      exact List.all_eq_true.mpr (renderDec_digits n)
  rw [parseDecNat, hcond]
  simp only [Bool.false_eq_true, if_false, Option.some.injEq]
  by_cases h : n = 0
  · subst h; decide
  · rw [renderDec, if_neg h, List.map_map]
    have hmap : (Nat.digits 10 n).reverse.map (decVal ∘ decDigitChar) =
        (Nat.digits 10 n).reverse := by
      rw [List.map_congr_left (g := id), List.map_id]
      intro d hd
      rw [List.mem_reverse] at hd
      exact (dec_digit_ok d (Nat.digits_lt_base (by omega) hd)).1
    rw [hmap, ofDigitsBE_reverse, Nat.ofDigits_digits]

theorem hex_digit_ok : ∀ d < 16, hexVal (hexDigitChar d) = d ∧
    isHexDigit (hexDigitChar d) = true := by decide

theorem renderHex_ne_nil (n : Nat) : renderHex n ≠ [] := by
  rw [renderHex]
  split
  · simp
  · simp [Nat.digits_ne_nil_iff_ne_zero, *]

theorem renderHex_digits (n : Nat) : ∀ c ∈ renderHex n, isHexDigit c = true := by
  rw [renderHex]
  split
  · intro c hc
    simp only [List.mem_singleton] at hc
    subst hc
    decide
  · intro c hc
    simp only [List.mem_map, List.mem_reverse] at hc
    obtain ⟨d, hdm, rfl⟩ := hc
    exact (hex_digit_ok d (Nat.digits_lt_base (by omega) hdm)).2

theorem renderHex_length_le (n : Nat) (h : n < 65536) : (renderHex n).length ≤ 4 := by
  rw [renderHex]
  split
  · simp
  · next h0 =>
    rw [List.length_map, List.length_reverse,
      Nat.digits_len 16 n (by omega) h0]
    have := Nat.log_lt_of_lt_pow (b := 16) (x := 4) h0 (by norm_num at h ⊢; omega)
    omega

theorem parseHexGroup_renderHex (n : Nat) (hn : n < 65536) :
    parseHexGroup (renderHex n) = some n := by
  have hcond : ((renderHex n).isEmpty || 4 < (renderHex n).length ||
      !((renderHex n).all isHexDigit)) = false := by
    rw [Bool.or_eq_false_iff, Bool.or_eq_false_iff]
    refine ⟨⟨?_, ?_⟩, ?_⟩
    · rw [List.isEmpty_eq_false_iff_exists_mem]
      rcases List.exists_mem_of_ne_nil _ (renderHex_ne_nil n) with ⟨c, hc⟩
      exact ⟨c, hc⟩
    · simp only [decide_eq_false_iff_not, not_lt]
      exact renderHex_length_le n hn
    · rw [Bool.not_eq_false']
      exact List.all_eq_true.mpr (renderHex_digits n)
  rw [parseHexGroup, hcond]
  simp only [Bool.false_eq_true, if_false, Option.some.injEq]
  by_cases h : n = 0
  · subst h; decide
  · rw [renderHex, if_neg h, List.map_map]
    have hmap : (Nat.digits 16 n).reverse.map (hexVal ∘ hexDigitChar) =
        (Nat.digits 16 n).reverse := by
      rw [List.map_congr_left (g := id), List.map_id]
      intro d hd
      rw [List.mem_reverse] at hd
      exact (hex_digit_ok d (Nat.digits_lt_base (by omega) hd)).1
    rw [hmap, ofDigitsBE_reverse, Nat.ofDigits_digits]

theorem isDecDigit_ne_slash {c : Char} (h : isDecDigit c = true) : c ≠ '/' := by
  rintro rfl
  revert h
  decide

theorem isDecDigit_ne_dot {c : Char} (h : isDecDigit c = true) : c ≠ '.' := by
  rintro rfl
  revert h
  decide

theorem isHexDigit_ne_slash {c : Char} (h : isHexDigit c = true) : c ≠ '/' := by
  rintro rfl
  revert h
  decide

theorem isHexDigit_ne_colon {c : Char} (h : isHexDigit c = true) : c ≠ ':' := by
  rintro rfl
  revert h
  decide

theorem splitChar_no_sep (sep : Char) (p : List Char) (h : sep ∉ p) :
    splitChar sep p = [p] := by
  induction p with
  | nil => rfl
  | cons c cs ih =>
    have hc : ¬ c = sep := fun hcc => h (hcc ▸ List.mem_cons_self c cs)
    have hcs : sep ∉ cs := fun hm => h (List.mem_cons_of_mem c hm)
    rw [splitChar, if_neg hc, ih hcs]

theorem splitChar_sep_append (sep : Char) (p rest : List Char) (h : sep ∉ p) :
    splitChar sep (p ++ sep :: rest) = p :: splitChar sep rest := by
  induction p with
  | nil => simp [splitChar]
  | cons c cs ih =>
    have hc : ¬ c = sep := fun hcc => h (hcc ▸ List.mem_cons_self c cs)
    have hcs : sep ∉ cs := fun hm => h (List.mem_cons_of_mem c hm)
    rw [List.cons_append, splitChar, if_neg hc, ih hcs]

theorem joinSep_cons (sep : Char) (p : List Char) (ps : List (List Char))
    (h : ps ≠ []) : joinSep sep (p :: ps) = p ++ sep :: joinSep sep ps := by
  cases ps with
  | nil => exact absurd rfl h
  | cons q qs => rfl

theorem splitChar_joinSep (sep : Char) (parts : List (List Char))
    (hne : parts ≠ []) (hs : ∀ p ∈ parts, sep ∉ p) :
    splitChar sep (joinSep sep parts) = parts := by
  induction parts with
  | nil => exact absurd rfl hne
  | cons p ps ih =>
    cases ps with
    | nil => exact splitChar_no_sep sep p (hs p (List.mem_cons_self p []))
    | cons q qs =>
      rw [joinSep_cons sep p (q :: qs) (by simp),
        splitChar_sep_append sep p _ (hs p (List.mem_cons_self p (q :: qs))),
        ih (by simp) (fun r hr => hs r (List.mem_cons_of_mem p hr))]

theorem joinSep_append (sep : Char) (l1 l2 : List (List Char))
    (h1 : l1 ≠ []) (h2 : l2 ≠ []) :
    joinSep sep (l1 ++ l2) = joinSep sep l1 ++ sep :: joinSep sep l2 := by
  induction l1 with
  | nil => exact absurd rfl h1
  | cons p ps ih =>
    cases ps with
    | nil =>
      rw [List.cons_append, List.nil_append, joinSep_cons sep p l2 h2]
      rfl
    | cons q qs =>
      rw [List.cons_append, joinSep_cons sep p ((q :: qs) ++ l2) (by simp),
        ih (by simp), joinSep_cons sep p (q :: qs) (by simp)]
      simp [List.append_assoc]

theorem b58_digit_ok : ∀ d < 58, b58Val (b58Digit d) = d ∧
    b58Alphabet.contains (b58Digit d) = true := by decide

theorem b58_one_val : b58Val '1' = 0 := by decide

theorem b58Digit_ne_one : ∀ d < 58, d ≠ 0 → b58Digit d ≠ '1' := by decide

theorem b58_contains_ne_slash {c : Char} (h : b58Alphabet.contains c = true) :
    c ≠ '/' := by
  rintro rfl
  revert h
  decide

theorem takeWhile_replicate_append {α : Type} (p : α → Bool) (a : α) (z : Nat)
    (l : List α) (hp : p a = true) :
    (List.replicate z a ++ l).takeWhile p = List.replicate z a ++ l.takeWhile p := by
  induction z with
  | zero => simp
  | succ z ih => simp [List.replicate_succ, List.takeWhile_cons, hp, ih]

/-- Core of the base-58 round trip, on a byte string split into its leading
zeros and a remainder that does not start with a zero byte. -/
theorem decode58_encode58_core (z : Nat) (l : List Nat)
    (hh : l.head? ≠ some 0) (hwf : ∀ b ∈ l, b < 256) :
    decode58 (encode58 (List.replicate z 0 ++ l)) =
      .ok (List.replicate z 0 ++ l) := by
  have hlt : l.takeWhile (fun b => b == 0) = [] := by
    cases l with
    | nil => rfl
    | cons h t =>
      have : (h == 0) = false := by
        simp only [List.head?_cons, ne_eq, Option.some.injEq] at hh
        simpa using hh
      simp [List.takeWhile_cons, this]
  have htw : ((List.replicate z 0 ++ l).takeWhile (fun b => b == 0)).length = z := by
    rw [takeWhile_replicate_append _ _ _ _ (by simp), hlt, List.append_nil,
      List.length_replicate]
  have hval : ofDigitsBE 256 (List.replicate z 0 ++ l) = ofDigitsBE 256 l :=
    ofDigitsBE_replicate_zero _ _ _
  cases l with
  | nil =>
    have hn : ofDigitsBE 256 ([] : List Nat) = 0 := rfl
    rw [encode58, htw, hval, hn]
    simp only [Nat.digits_zero, List.reverse_nil, List.map_nil, List.append_nil]
    rw [decode58, if_pos ?hc]
    case hc =>
      refine List.all_eq_true.mpr ?_
      intro c hc
      rw [List.mem_replicate] at hc
      rw [hc.2]
      decide
    have htw2 : ((List.replicate z '1').takeWhile (fun c => c == '1')).length = z := by
      have := takeWhile_replicate_append (fun c : Char => c == '1') '1' z []
        (by decide)
      rw [List.append_nil] at this
      rw [this]
      simp
    rw [htw2, List.map_replicate]
    have : b58Val '1' = 0 := b58_one_val
    rw [this]
    have hz : ofDigitsBE 58 (List.replicate z 0) = 0 := by
      have := ofDigitsBE_replicate_zero 58 z []
      rwa [List.append_nil] at this
    rw [hz]
    simp
  | cons h0 t =>
    have hh0 : h0 ≠ 0 := by
      simp only [List.head?_cons, ne_eq, Option.some.injEq] at hh
      exact hh
    set l := h0 :: t with hl
    set n := ofDigitsBE 256 l with hn
    have hdig : Nat.digits 256 n = l.reverse := by
      rw [hn, ofDigitsBE_eq_ofDigits_reverse]
      refine Nat.digits_ofDigits 256 (by norm_num) l.reverse ?_ ?_
      · intro x hx
        exact hwf x (List.mem_reverse.mp hx)
      · intro hne
        have h1 : l.reverse.getLast? = some h0 := by
          rw [hl, List.reverse_cons, List.getLast?_concat]
        rw [List.getLast?_eq_getLast _ hne, Option.some.injEq] at h1
        rw [h1]
        exact hh0
    have hnne : n ≠ 0 := by
      intro h0e
      rw [h0e, Nat.digits_zero] at hdig
      exact List.cons_ne_nil h0 t (by simpa using hdig.symm)
    have hD58 : ∀ d ∈ Nat.digits 58 n, d < 58 :=
      fun d hd => Nat.digits_lt_base (by norm_num) hd
    cases hDc : (Nat.digits 58 n).reverse with
    | nil =>
      exact absurd (by simpa using congrArg List.reverse hDc)
        (Nat.digits_ne_nil_iff_ne_zero.mpr hnne)
    | cons d0 ds =>
      have hd0mem : d0 ∈ Nat.digits 58 n := by
        rw [← List.mem_reverse, hDc]
        exact List.mem_cons_self d0 ds
      have hd0lt : d0 < 58 := hD58 d0 hd0mem
      have hdigsplit : Nat.digits 58 n = ds.reverse ++ [d0] := by
        have := congrArg List.reverse hDc
        rwa [List.reverse_reverse, List.reverse_cons] at this
      have hd0ne : d0 ≠ 0 := by
        have hgl := Nat.getLast_digit_ne_zero 58 hnne
        rw [List.getLast_congr _ _ hdigsplit, List.getLast_concat] at hgl
        exact hgl
      have henc : encode58 (List.replicate z 0 ++ l) =
          List.replicate z '1' ++ b58Digit d0 :: ds.map b58Digit := by
        rw [encode58, htw, hval, hDc, List.map_cons]
      rw [henc, decode58, if_pos ?hc2]
      case hc2 =>
        refine List.all_eq_true.mpr ?_
        intro c hc
        rw [List.mem_append] at hc
        rcases hc with hc | hc
        · rw [List.mem_replicate] at hc
          rw [hc.2]
          decide
        · rw [List.mem_cons] at hc
          rcases hc with hc | hc
          · rw [hc]
            exact (b58_digit_ok d0 hd0lt).2
          · rw [List.mem_map] at hc
            obtain ⟨d, hd, rfl⟩ := hc
            have : d ∈ Nat.digits 58 n := by
              rw [← List.mem_reverse, hDc]
              exact List.mem_cons_of_mem d0 hd
            exact (b58_digit_ok d (hD58 d this)).2
      have htw3 : ((List.replicate z '1' ++ b58Digit d0 :: ds.map b58Digit).takeWhile
          (fun c => c == '1')).length = z := by
        rw [takeWhile_replicate_append _ _ _ _ (by decide)]
        have : (b58Digit d0 == '1') = false := by
          simpa using b58Digit_ne_one d0 hd0lt hd0ne
        rw [List.takeWhile_cons, this]
        simp
      rw [htw3]
      have hmapval : (List.replicate z '1' ++ b58Digit d0 :: ds.map b58Digit).map b58Val =
          List.replicate z 0 ++ d0 :: ds := by
        rw [List.map_append, List.map_replicate, b58_one_val, List.map_cons,
          (b58_digit_ok d0 hd0lt).1, List.map_map]
        have : ds.map (b58Val ∘ b58Digit) = ds := by
          rw [List.map_congr_left (g := id), List.map_id]
          intro d hd
          have : d ∈ Nat.digits 58 n := by
            rw [← List.mem_reverse, hDc]
            exact List.mem_cons_of_mem d0 hd
          exact (b58_digit_ok d (hD58 d this)).1
        rw [this]
      rw [hmapval]
      have hval2 : ofDigitsBE 58 (List.replicate z 0 ++ d0 :: ds) = n := by
        rw [ofDigitsBE_replicate_zero, ← hDc, ofDigitsBE_eq_ofDigits_reverse,
          List.reverse_reverse, Nat.ofDigits_digits]
      rw [hval2, hdig, List.reverse_reverse]

/-- The base-58 round trip: decoding an encoded byte string recovers it. -/
theorem decode58_encode58 (bs : List Nat) (hwf : ∀ b ∈ bs, b < 256) :
    decode58 (encode58 bs) = .ok bs := by
  have hbs : bs.takeWhile (fun b => b == 0) ++ bs.dropWhile (fun b => b == 0) = bs :=
    List.takeWhile_append_dropWhile _ _
  have htwr : bs.takeWhile (fun b => b == 0) =
      List.replicate (bs.takeWhile (fun b => b == 0)).length 0 :=
    List.eq_replicate_of_mem (fun x hx => by simpa using List.mem_takeWhile_imp hx)
  have hhead : (bs.dropWhile (fun b => b == 0)).head? ≠ some 0 := by
    intro hc
    have hne : bs.dropWhile (fun b => b == 0) ≠ [] := by
      intro hnil
      rw [hnil] at hc
      simp at hc
    have hp := List.head_dropWhile_not (fun b => b == 0) bs hne
    rw [List.head?_eq_head hne, Option.some.injEq] at hc
    rw [hc] at hp
    simp at hp
  have hmem : ∀ b ∈ bs.dropWhile (fun b => b == 0), b < 256 :=
    fun b hb => hwf b ((List.dropWhile_sublist _).mem hb)
  have := decode58_encode58_core (bs.takeWhile (fun b => b == 0)).length
    (bs.dropWhile (fun b => b == 0)) hhead hmem
  rwa [← htwr, hbs] at this

theorem parseU16_renderDec (p : Nat) (hp : p < 65536) :
    parseU16 (renderDec p) = .ok p := by
  rw [parseU16, parseDecNat_renderDec]
  simp [hp]

theorem renderDec_no_slash (n : Nat) : '/' ∉ renderDec n :=
  fun h => isDecDigit_ne_slash (renderDec_digits n '/' h) rfl

theorem renderDec_no_dot (n : Nat) : '.' ∉ renderDec n :=
  fun h => isDecDigit_ne_dot (renderDec_digits n '.' h) rfl

theorem renderHex_no_slash (n : Nat) : '/' ∉ renderHex n :=
  fun h => isHexDigit_ne_slash (renderHex_digits n '/' h) rfl

theorem renderHex_no_colon (n : Nat) : ':' ∉ renderHex n :=
  fun h => isHexDigit_ne_colon (renderHex_digits n ':' h) rfl

theorem mem_joinSep {sep c : Char} {parts : List (List Char)}
    (h : c ∈ joinSep sep parts) : c = sep ∨ ∃ p ∈ parts, c ∈ p := by
  induction parts with
  | nil => simp [joinSep] at h
  | cons p ps ih =>
    cases ps with
    | nil => exact Or.inr ⟨p, by simp, h⟩
    | cons q qs =>
      rw [joinSep_cons _ _ _ (by simp)] at h
      rw [List.mem_append, List.mem_cons] at h
      rcases h with h | h | h
      · exact Or.inr ⟨p, by simp, h⟩
      · exact Or.inl h
      · rcases ih h with h2 | ⟨r, hr, hcr⟩
        · exact Or.inl h2
        · exact Or.inr ⟨r, List.mem_cons_of_mem p hr, hcr⟩

theorem renderIp4_eq_joinSep (ip : Ipv4Addr) :
    renderIp4 ip = joinSep '.'
      [renderDec ip.o0, renderDec ip.o1, renderDec ip.o2, renderDec ip.o3] := by
  simp [renderIp4, joinSep]

theorem renderIp4_no_slash (ip : Ipv4Addr) : '/' ∉ renderIp4 ip := by
  intro h
  rw [renderIp4_eq_joinSep] at h
  rcases mem_joinSep h with h | ⟨p, hp, hcp⟩
  · exact absurd h (by decide)
  · simp only [List.mem_cons, List.not_mem_nil, or_false] at hp
    rcases hp with rfl | rfl | rfl | rfl <;> exact renderDec_no_slash _ hcp

theorem renderIp6_no_slash (v : Ipv6Addr) : '/' ∉ renderIp6 v := by
  intro h
  rw [renderIp6] at h
  rcases mem_joinSep h with h | ⟨p, hp, hcp⟩
  · exact absurd h (by decide)
  · rw [List.mem_map] at hp
    obtain ⟨g, _, rfl⟩ := hp
    exact renderHex_no_slash g hcp

theorem encode58_no_slash (bs : List Nat) : '/' ∉ encode58 bs := by
  intro h
  rw [encode58, List.mem_append] at h
  rcases h with h | h
  · rw [List.mem_replicate] at h
    exact absurd h.2 (by decide)
  · rw [List.mem_map] at h
    obtain ⟨d, hd, hdd⟩ := h
    have hd58 : d < 58 := Nat.digits_lt_base (by norm_num) (List.mem_reverse.mp hd)
    have hcon := (b58_digit_ok d hd58).2
    rw [hdd] at hcon
    exact absurd hcon (by decide)

theorem parseIp4_renderIp4 (ip : Ipv4Addr) (hwf : ip.wf) :
    parseIp4 (renderIp4 ip) = .ok ip := by
  obtain ⟨a, b, c, d⟩ := ip
  replace hwf : a < 256 ∧ b < 256 ∧ c < 256 ∧ d < 256 := hwf
  rw [parseIp4, renderIp4_eq_joinSep]
  rw [splitChar_joinSep '.' _ (by simp) ?hns]
  case hns =>
    intro p hp
    simp only [List.mem_cons, List.not_mem_nil, or_false] at hp
    rcases hp with rfl | rfl | rfl | rfl <;> exact renderDec_no_dot _
  simp only [parseDecNat_renderDec]
  rw [if_pos hwf]

theorem renderIp6_groups (v : Ipv6Addr) :
    renderIp6 v = joinSep ':'
      [renderHex v.g0, renderHex v.g1, renderHex v.g2, renderHex v.g3,
       renderHex v.g4, renderHex v.g5, renderHex v.g6, renderHex v.g7] := by
  simp [renderIp6, Ipv6Addr.groups, joinSep]

theorem parseIp6_renderIp6 (v : Ipv6Addr) (hwf : v.wf) :
    parseIp6 (renderIp6 v) = .ok v := by
  obtain ⟨g0, g1, g2, g3, g4, g5, g6, g7⟩ := v
  replace hwf : g0 < 65536 ∧ g1 < 65536 ∧ g2 < 65536 ∧ g3 < 65536 ∧
      g4 < 65536 ∧ g5 < 65536 ∧ g6 < 65536 ∧ g7 < 65536 := hwf
  obtain ⟨h0, h1, h2, h3, h4, h5, h6, h7⟩ := hwf
  rw [parseIp6, renderIp6_groups]
  rw [splitChar_joinSep ':' _ (by simp) ?hns]
  case hns =>
    intro p hp
    simp only [List.mem_cons, List.not_mem_nil, or_false] at hp
    rcases hp with rfl | rfl | rfl | rfl | rfl | rfl | rfl | rfl <;>
      exact renderHex_no_colon _
  simp only [parseHexGroup_renderHex _ h0, parseHexGroup_renderHex _ h1,
    parseHexGroup_renderHex _ h2, parseHexGroup_renderHex _ h3,
    parseHexGroup_renderHex _ h4, parseHexGroup_renderHex _ h5,
    parseHexGroup_renderHex _ h6, parseHexGroup_renderHex _ h7]

/-- The tokens a rendered segment contributes to the `/`-separated string:
its name, then its payload text if it has one. -/
def tokensOf : Segment → List (List Char)
  | .IP4 ip => [['i', 'p', '4'], renderIp4 ip]
  | .IP6 v => [['i', 'p', '6'], renderIp6 v]
  | .Udp p => [['u', 'd', 'p'], renderDec p]
  | .Dccp p => [['d', 'c', 'c', 'p'], renderDec p]
  | .Sctp p => [['s', 'c', 't', 'p'], renderDec p]
  | .Tcp p => [['t', 'c', 'p'], renderDec p]
  | .Ipfs h => [['i', 'p', 'f', 's'], encode58 (writeMultiHash h)]
  | .Udt => [['u', 'd', 't']]
  | .Utp => [['u', 't', 'p']]
  | .Http => [['h', 't', 't', 'p']]
  | .Https => [['h', 't', 't', 'p', 's']]

theorem renderSegment_tokens (s : Segment) :
    renderSegment s = '/' :: joinSep '/' (tokensOf s) := by
  cases s <;> rfl

theorem tokensOf_ne_nil (s : Segment) : tokensOf s ≠ [] := by
  cases s <;> simp [tokensOf]

theorem tokensOf_no_slash (s : Segment) : ∀ p ∈ tokensOf s, '/' ∉ p := by
  cases s with
  | IP4 ip =>
    intro p hp
    simp only [tokensOf, List.mem_cons, List.not_mem_nil, or_false] at hp
    rcases hp with rfl | rfl
    · decide
    · exact renderIp4_no_slash ip
  | IP6 v =>
    intro p hp
    simp only [tokensOf, List.mem_cons, List.not_mem_nil, or_false] at hp
    rcases hp with rfl | rfl
    · decide
    · exact renderIp6_no_slash v
  | Udp q =>
    intro p hp
    simp only [tokensOf, List.mem_cons, List.not_mem_nil, or_false] at hp
    rcases hp with rfl | rfl
    · decide
    · exact renderDec_no_slash q
  | Dccp q =>
    intro p hp
    simp only [tokensOf, List.mem_cons, List.not_mem_nil, or_false] at hp
    rcases hp with rfl | rfl
    · decide
    · exact renderDec_no_slash q
  | Sctp q =>
    intro p hp
    simp only [tokensOf, List.mem_cons, List.not_mem_nil, or_false] at hp
    rcases hp with rfl | rfl
    · decide
    · exact renderDec_no_slash q
  | Tcp q =>
    intro p hp
    simp only [tokensOf, List.mem_cons, List.not_mem_nil, or_false] at hp
    rcases hp with rfl | rfl
    · decide
    · exact renderDec_no_slash q
  | Ipfs h =>
    intro p hp
    simp only [tokensOf, List.mem_cons, List.not_mem_nil, or_false] at hp
    rcases hp with rfl | rfl
    · decide
    · exact encode58_no_slash (writeMultiHash h)
  | Udt =>
    intro p hp
    simp only [tokensOf, List.mem_cons, List.not_mem_nil, or_false] at hp
    rw [hp]
    decide
  | Utp =>
    intro p hp
    simp only [tokensOf, List.mem_cons, List.not_mem_nil, or_false] at hp
    rw [hp]
    decide
  | Http =>
    intro p hp
    simp only [tokensOf, List.mem_cons, List.not_mem_nil, or_false] at hp
    rw [hp]
    decide
  | Https =>
    intro p hp
    simp only [tokensOf, List.mem_cons, List.not_mem_nil, or_false] at hp
    rw [hp]
    decide

theorem parseSegments_tokens (s : Segment) (hwf : s.wf) (ts : List (List Char)) :
    parseSegments (tokensOf s ++ ts) =
      match parseSegments ts with
      | .error e => .error e
      | .ok segs => .ok (s :: segs) := by
  cases s with
  | IP4 ip =>
    show parseSegments (['i', 'p', '4'] :: renderIp4 ip :: ts) = _
    rw [parseSegments, if_pos rfl]
    simp only [parseIp4_renderIp4 ip hwf]
  | IP6 v =>
    show parseSegments (['i', 'p', '6'] :: renderIp6 v :: ts) = _
    rw [parseSegments, if_neg (by decide), if_pos rfl]
    simp only [parseIp6_renderIp6 v hwf]
  | Udp p =>
    show parseSegments (['u', 'd', 'p'] :: renderDec p :: ts) = _
    rw [parseSegments, if_neg (by decide), if_neg (by decide), if_pos rfl]
    simp only [parseU16_renderDec p hwf]
  | Dccp p =>
    show parseSegments (['d', 'c', 'c', 'p'] :: renderDec p :: ts) = _
    rw [parseSegments, if_neg (by decide), if_neg (by decide),
      if_neg (by decide), if_pos rfl]
    simp only [parseU16_renderDec p hwf]
  | Sctp p =>
    show parseSegments (['s', 'c', 't', 'p'] :: renderDec p :: ts) = _
    rw [parseSegments, if_neg (by decide), if_neg (by decide),
      if_neg (by decide), if_neg (by decide), if_pos rfl]
    simp only [parseU16_renderDec p hwf]
  | Tcp p =>
    show parseSegments (['t', 'c', 'p'] :: renderDec p :: ts) = _
    rw [parseSegments, if_neg (by decide), if_neg (by decide),
      if_neg (by decide), if_neg (by decide), if_neg (by decide), if_pos rfl]
    simp only [parseU16_renderDec p hwf]
  | Ipfs h =>
    show parseSegments (['i', 'p', 'f', 's'] :: encode58 (writeMultiHash h) :: ts) = _
    rw [parseSegments, if_neg (by decide), if_neg (by decide),
      if_neg (by decide), if_neg (by decide), if_neg (by decide),
      if_neg (by decide), if_pos rfl]
    have hmh : readMultiHash (writeMultiHash h) = .ok (h, []) := by
      have := readMultiHash_write h []
      rwa [List.append_nil] at this
    simp only [decode58_encode58 _ (writeMultiHash_lt_256 h hwf), hmh]
  | Udt =>
    show parseSegments (['u', 'd', 't'] :: ts) = _
    rw [parseSegments.eq_def]
    dsimp only
    rw [if_neg (by decide), if_neg (by decide),
      if_neg (by decide), if_neg (by decide), if_neg (by decide),
      if_neg (by decide), if_neg (by decide), if_pos rfl]
  | Utp =>
    show parseSegments (['u', 't', 'p'] :: ts) = _
    rw [parseSegments.eq_def]
    dsimp only
    rw [if_neg (by decide), if_neg (by decide),
      if_neg (by decide), if_neg (by decide), if_neg (by decide),
      if_neg (by decide), if_neg (by decide), if_neg (by decide), if_pos rfl]
  | Http =>
    show parseSegments (['h', 't', 't', 'p'] :: ts) = _
    rw [parseSegments.eq_def]
    dsimp only
    rw [if_neg (by decide), if_neg (by decide),
      if_neg (by decide), if_neg (by decide), if_neg (by decide),
      if_neg (by decide), if_neg (by decide), if_neg (by decide),
      if_neg (by decide), if_pos rfl]
  | Https =>
    show parseSegments (['h', 't', 't', 'p', 's'] :: ts) = _
    rw [parseSegments.eq_def]
    dsimp only
    rw [if_neg (by decide), if_neg (by decide),
      if_neg (by decide), if_neg (by decide), if_neg (by decide),
      if_neg (by decide), if_neg (by decide), if_neg (by decide),
      if_neg (by decide), if_neg (by decide), if_pos rfl]

theorem flatten_tokens_ne_nil (segs : List Segment) (hne : segs ≠ []) :
    (segs.map tokensOf).flatten ≠ [] := by
  cases segs with
  | nil => exact absurd rfl hne
  | cons s ss =>
    rw [List.map_cons, List.flatten_cons]
    intro hc
    exact tokensOf_ne_nil s (List.append_eq_nil.mp hc).1

theorem flatten_tokens_no_slash (segs : List Segment) :
    ∀ p ∈ (segs.map tokensOf).flatten, '/' ∉ p := by
  intro p hp
  rw [List.mem_flatten] at hp
  obtain ⟨l, hl, hpl⟩ := hp
  rw [List.mem_map] at hl
  obtain ⟨s, _, rfl⟩ := hl
  exact tokensOf_no_slash s p hpl

theorem renderMultiaddr_tokens (segs : List Segment) (hne : segs ≠ []) :
    renderMultiaddr ⟨segs⟩ = '/' :: joinSep '/' ((segs.map tokensOf).flatten) := by
  induction segs with
  | nil => exact absurd rfl hne
  | cons s ss ih =>
    cases ss with
    | nil =>
      show renderSegment s ++ [] = _
      rw [List.append_nil, renderSegment_tokens]
      simp
    | cons q qs =>
      have hq := ih (by simp)
      show renderSegment s ++ renderMultiaddr ⟨q :: qs⟩ = _
      rw [hq, renderSegment_tokens]
      conv_rhs => rw [List.map_cons, List.flatten_cons,
        joinSep_append '/' (tokensOf s) _ (tokensOf_ne_nil s)
          (flatten_tokens_ne_nil (q :: qs) (by simp))]
      simp

theorem parseSegments_flat (segs : List Segment) (hwf : ∀ s ∈ segs, s.wf) :
    parseSegments ((segs.map tokensOf).flatten) = .ok segs := by
  induction segs with
  | nil => rfl
  | cons s ss ih =>
    rw [List.map_cons, List.flatten_cons,
      parseSegments_tokens s (hwf s (List.mem_cons_self s ss)) _,
      ih (fun t ht => hwf t (List.mem_cons_of_mem s ht))]

/-- Rendering a nonempty well-formed address and parsing the result gives the
address back. -/
theorem fromStr_render (a : MultiAddr) (hwf : a.wf) (hne : a.segments ≠ []) :
    fromStr (renderMultiaddr a) = .ok a := by
  obtain ⟨segs⟩ := a
  replace hwf : ∀ s ∈ segs, s.wf := hwf
  replace hne : segs ≠ [] := hne
  rw [renderMultiaddr_tokens segs hne, fromStr,
    if_neg (by decide), if_neg (by decide),
    splitChar_joinSep '/' _ (flatten_tokens_ne_nil segs hne)
      (flatten_tokens_no_slash segs),
    parseSegments_flat segs hwf]

/-- C1 (counterexample): the empty address renders to the empty string, and
parsing the empty string panics (the byte slice `&s[0..1]` is out of bounds)
instead of returning the empty address, so the round trip fails on the empty
address. -/
theorem C1_empty_address_fails :
    renderMultiaddr ⟨[]⟩ = [] ∧ fromStr (renderMultiaddr ⟨[]⟩) = .panic ∧
      ParseOutcome.panic ≠ .ok ⟨[]⟩ :=
  ⟨rfl, rfl, by decide⟩

/-- C1 (amended): for every well-formed address with at least one segment,
parsing the rendered string returns the address again; the empty address is
excluded because its rendering is the empty string, on which the parser
panics. -/
theorem C1_text_round_trip (a : MultiAddr) (hwf : a.wf)
    (hne : a.segments ≠ []) : fromStr (renderMultiaddr a) = .ok a :=
  fromStr_render a hwf hne

/-- C1 witness. -/
theorem C1_text_round_trip_witness :
    fromStr (renderMultiaddr ⟨[.IP4 ⟨1, 2, 3, 4⟩, .Tcp 4001]⟩) =
      .ok ⟨[.IP4 ⟨1, 2, 3, 4⟩, .Tcp 4001]⟩ :=
  C1_text_round_trip ⟨[.IP4 ⟨1, 2, 3, 4⟩, .Tcp 4001]⟩ (by decide) (by decide)

/-- C2: for every well-formed address, reading back the bytes produced by
writing it returns the address again; and the varint length prefix written for
a content-hash segment is exactly the byte length of the hash sub-encoding, so
the reader's length-bounded sub-decode consumes exactly the prefixed bytes. -/
theorem C2_binary_round_trip :
    (∀ a : MultiAddr, a.wf → readMultiaddr (writeMultiaddr a) = .ok a) ∧
      (∀ h : MultiHash,
        segPayload (.Ipfs h) =
          encodeUVarint (writeMultiHash h).length ++ writeMultiHash h) :=
  ⟨readMultiaddr_write, fun _ => rfl⟩

/-- C2 witness. -/
theorem C2_binary_round_trip_witness :
    readMultiaddr (writeMultiaddr ⟨[.IP4 ⟨1, 2, 3, 4⟩, .Tcp 4001,
        .Ipfs ⟨18, [1, 2, 3]⟩]⟩) =
      .ok ⟨[.IP4 ⟨1, 2, 3, 4⟩, .Tcp 4001, .Ipfs ⟨18, [1, 2, 3]⟩]⟩ :=
  C2_binary_round_trip.1 ⟨[.IP4 ⟨1, 2, 3, 4⟩, .Tcp 4001, .Ipfs ⟨18, [1, 2, 3]⟩]⟩
    (by decide)

/-- C3 (counterexample): parsing the one-character string "/" does not return
the empty address. -/
theorem C3_slash_not_empty_address : fromStr ['/'] ≠ .ok ⟨[]⟩ := by decide

/-- C3 (amended): parsing "/" fails with the "unrecognised segment type" error
for the empty token — splitting the empty remainder on '/' yields one empty
token, which matches no segment name — rather than succeeding with the empty
address. -/
theorem C3_slash_unrecognised :
    fromStr ['/'] = .err (.str "unrecognised segment type ") := by decide

/-- C4 (counterexample): the buffer `[4,1,2,3,4,0]` — a complete valid segment
sequence (one ip4 segment) followed by one trailing byte — fails with the
"invalid code" error, not the "unexpected extra bytes" error. -/
theorem C4_trailing_byte_invalid_code :
    readMultiaddr [4, 1, 2, 3, 4, 0] = .error .invalidCode ∧
      readMultiaddr [4, 1, 2, 3, 4, 0] ≠ .error .extraBytes := by decide

/-- C4 (amended): trailing bytes after a complete valid segment sequence are
consumed as the start of a further segment, because the reading loop exits
only on clean end-of-stream (so the final `check_empty` never fires): a
trailing run starting with an unknown code such as 0 fails with the "invalid
code" error instead of "unexpected extra bytes". -/
theorem C4_trailing_bytes_read_as_segments (a : MultiAddr) (hwf : a.wf)
    (bs : List Nat) :
    readMultiaddr (writeMultiaddr a ++ 0 :: bs) = .error .invalidCode := by
  have h := readSegmentsF_write a.segments (0 :: bs) hwf
  have h0 : readSegmentsF ((0 :: bs).length + 1) (0 :: bs) = .error .invalidCode := by
    rw [readSegmentsF]
    have ht : tryReadSegment (0 :: bs) = .error .invalidCode := by
      rw [tryReadSegment]
      simp [readUVarint, readSegment]
    rw [ht]
  rw [h0] at h
  rw [readMultiaddr, writeMultiaddr]
  rw [h]

/-- C4 witness. -/
theorem C4_trailing_bytes_witness :
    readMultiaddr (writeMultiaddr ⟨[.IP4 ⟨1, 2, 3, 4⟩]⟩ ++ 0 :: []) =
      .error .invalidCode :=
  C4_trailing_bytes_read_as_segments ⟨[.IP4 ⟨1, 2, 3, 4⟩]⟩ (by decide) []

/-- C5 (counterexample): the empty string does not begin with '/', yet parsing
it panics (out-of-bounds byte slice) instead of returning the
leading-delimiter error. -/
theorem C5_empty_string_panics :
    fromStr [] = .panic ∧
      ParseOutcome.panic ≠ .err (.str "didn\x27t start with /") :=
  ⟨rfl, by decide⟩

/-- C5 (amended): for every string whose first character is a one-byte (ASCII)
character other than '/', parsing returns the leading-delimiter error; the
empty string, and strings starting with a multi-byte character, panic
instead. -/
theorem C5_non_slash_error (c : Char) (s : List Char) (hascii : c.toNat < 128)
    (hc : c ≠ '/') :
    fromStr (c :: s) = .err (.str "didn\x27t start with /") := by
  rw [fromStr, if_neg (by omega), if_pos hc]

/-- C5 witness. -/
theorem C5_non_slash_error_witness :
    fromStr ['x'] = .err (.str "didn\x27t start with /") :=
  C5_non_slash_error 'x' [] (by decide) (by decide)

/-- C6: `from_str` evaluates the byte slice `&s[0..1]` first: it panics on the
empty string and whenever the first character occupies more than one UTF-8
byte, and for every input whose first character is a one-byte (ASCII)
character it never panics. -/
theorem C6_first_byte_slice :
    fromStr [] = .panic ∧
      (∀ (c : Char) (s : List Char), 128 ≤ c.toNat → fromStr (c :: s) = .panic) ∧
      (∀ (c : Char) (s : List Char), c.toNat < 128 → fromStr (c :: s) ≠ .panic) := by
  refine ⟨rfl, ?_, ?_⟩
  · intro c s h
    rw [fromStr, if_pos h]
  · intro c s hlt
    rw [fromStr, if_neg (by omega)]
    by_cases hc : c = '/'
    · rw [if_neg (by simp [hc])]
      cases h2 : parseSegments (splitChar '/' s) <;> simp
    · rw [if_pos hc]
      simp

/-- C6 witness. -/
theorem C6_first_byte_slice_witness :
    fromStr ['é'] = .panic ∧ fromStr ['a'] ≠ .panic :=
  ⟨C6_first_byte_slice.2.1 'é' [] (by decide),
   C6_first_byte_slice.2.2 'a' [] (by decide)⟩

/-- C7: `code` and `name` depend only on the variant tag (not on any payload)
and are injective over the 11 variants, with exactly the table ip4=4, tcp=6,
udp=17, dccp=33, ip6=41, sctp=132, udt=301, utp=302, ipfs=421, https=443,
http=480 and the lowercase names. -/
theorem C7_code_name_table :
    (∀ s t : Segment, (s.tag = t.tag ↔ s.code = t.code) ∧
      (s.tag = t.tag ↔ s.name = t.name)) ∧
    (∀ ip, (Segment.IP4 ip).code = 4 ∧ (Segment.IP4 ip).name = ['i', 'p', '4']) ∧
    (∀ p, (Segment.Tcp p).code = 6 ∧ (Segment.Tcp p).name = ['t', 'c', 'p']) ∧
    (∀ p, (Segment.Udp p).code = 17 ∧ (Segment.Udp p).name = ['u', 'd', 'p']) ∧
    (∀ p, (Segment.Dccp p).code = 33 ∧
      (Segment.Dccp p).name = ['d', 'c', 'c', 'p']) ∧
    (∀ v, (Segment.IP6 v).code = 41 ∧ (Segment.IP6 v).name = ['i', 'p', '6']) ∧
    (∀ p, (Segment.Sctp p).code = 132 ∧
      (Segment.Sctp p).name = ['s', 'c', 't', 'p']) ∧
    (Segment.Udt.code = 301 ∧ Segment.Udt.name = ['u', 'd', 't']) ∧
    (Segment.Utp.code = 302 ∧ Segment.Utp.name = ['u', 't', 'p']) ∧
    (∀ h, (Segment.Ipfs h).code = 421 ∧
      (Segment.Ipfs h).name = ['i', 'p', 'f', 's']) ∧
    (Segment.Https.code = 443 ∧ Segment.Https.name = ['h', 't', 't', 'p', 's']) ∧
    (Segment.Http.code = 480 ∧ Segment.Http.name = ['h', 't', 't', 'p']) := by
  refine ⟨?_, fun ip => ⟨rfl, rfl⟩, fun p => ⟨rfl, rfl⟩, fun p => ⟨rfl, rfl⟩,
    fun p => ⟨rfl, rfl⟩, fun v => ⟨rfl, rfl⟩, fun p => ⟨rfl, rfl⟩, ⟨rfl, rfl⟩,
    ⟨rfl, rfl⟩, fun h => ⟨rfl, rfl⟩, ⟨rfl, rfl⟩, ⟨rfl, rfl⟩⟩
  intro s t
  cases s <;> cases t <;>
    simp [Segment.tag, Segment.code, Segment.name]

/-- C8: `split_off_last` returns `none` exactly on the empty address, and on a
nonempty address returns the address without its last segment together with
that segment, and re-appending the segment reproduces the original address. -/
theorem C8_split_off_last :
    ∀ a : MultiAddr,
      (a.splitOffLast = none ↔ a.segments = []) ∧
      (∀ p s, a.splitOffLast = some (p, s) →
        p.segments = a.segments.dropLast ∧ a.segments.getLast? = some s ∧
          p.addSegment s = a) := by
  intro a
  obtain ⟨segs⟩ := a
  have hseg : (MultiAddr.mk segs).segments = segs := rfl
  constructor
  · rw [MultiAddr.splitOffLast, hseg]
    cases h : segs.getLast? with
    | none =>
      simp only [true_iff]
      cases segs with
      | nil => rfl
      | cons x xs =>
        rw [List.getLast?_eq_getLast _ (by simp)] at h
        simp at h
    | some s =>
      constructor
      · intro hc
        exact absurd hc (by simp)
      · intro hc
        rw [hc] at h
        simp at h
  · intro p s hps
    rw [MultiAddr.splitOffLast, hseg] at hps
    cases h : segs.getLast? with
    | none => rw [h] at hps; simp at hps
    | some s2 =>
      rw [h] at hps
      simp only [Option.some.injEq, Prod.mk.injEq] at hps
      obtain ⟨hp, hs⟩ := hps
      have hne : segs ≠ [] := by
        intro hnil
        rw [hnil] at h
        simp at h
      have hlast : s2 = segs.getLast hne := by
        rw [List.getLast?_eq_getLast _ hne] at h
        exact (Option.some.inj h).symm
      refine ⟨by rw [← hp], by rw [hs], ?_⟩
      rw [MultiAddr.addSegment, MultiAddr.add, ← hp, ← hs]
      show MultiAddr.mk (segs.dropLast ++ [s2]) = MultiAddr.mk segs
      rw [hlast, List.dropLast_append_getLast hne]

/-- C8 witness. -/
theorem C8_split_off_last_witness :
    (MultiAddr.mk []).segments = ([] : List Segment).dropLast ∧
      ([Segment.Tcp 1] : List Segment).getLast? = some (.Tcp 1) ∧
      (MultiAddr.mk []).addSegment (.Tcp 1) = ⟨[.Tcp 1]⟩ :=
  (C8_split_off_last ⟨[.Tcp 1]⟩).2 ⟨[]⟩ (.Tcp 1) (by decide)

/-- C9: concatenation of addresses yields the left operand's segments followed
by the right operand's, and is associative. -/
theorem C9_add_assoc :
    ∀ a b c : MultiAddr,
      (a.add b).segments = a.segments ++ b.segments ∧
      (a.add b).add c = a.add (b.add c) := by
  intro a b c
  refine ⟨rfl, ?_⟩
  rw [MultiAddr.add, MultiAddr.add, MultiAddr.add, MultiAddr.add]
  simp [List.append_assoc]

/-- C10 (counterexample): a content-hash segment whose declared length (36)
exceeds the available bytes is decoded from the shorter window; the
sub-decoder consumes only 3 bytes, fewer than the declared 36, yet the segment
read succeeds instead of failing with "unexpected extra bytes". -/
theorem C10_short_window_succeeds :
    readIpfsPayload [36, 18, 1, 171] = .ok (.Ipfs ⟨18, [171]⟩, []) ∧
      readIpfsPayload [36, 18, 1, 171] ≠ .error .extraBytes ∧
      readMultiaddr [165, 3, 36, 18, 1, 171] = .ok ⟨[.Ipfs ⟨18, [171]⟩]⟩ := by
  decide

/-- C10 (amended): the hash sub-decoder is confined to a window of at most `L`
bytes (`r1.take L`, so never beyond the declared length and never beyond the
stream): when it consumes the whole window the segment read succeeds — even if
the stream held fewer than `L` bytes, in which case fewer than `L` bytes are
consumed — and when it leaves bytes in the window the read fails with the
"unexpected extra bytes" error. -/
theorem C10_take_window :
    ∀ (bs : List Nat) (L : Nat) (r1 : List Nat) (h : MultiHash)
      (winRest : List Nat),
      readUVarint bs = .ok (L, r1) →
      readMultiHash (r1.take L) = .ok (h, winRest) →
      (winRest = [] →
        readIpfsPayload bs = .ok (.Ipfs h, r1.drop (min L r1.length))) ∧
      (winRest ≠ [] → readIpfsPayload bs = .error .extraBytes) := by
  intro bs L r1 h winRest h1 h2
  have hsuf : winRest.length ≤ (r1.take L).length :=
    (readMultiHash_suffix h2).length_le
  have hwl : (r1.take L).length = min L r1.length := by
    rw [List.length_take]
  rw [readIpfsPayload]
  simp only [h1, h2]
  constructor
  · intro hwr
    subst hwr
    simp only [List.length_nil, Nat.sub_zero]
    by_cases hLr : L ≤ r1.length
    · rw [if_pos (by omega : L - (r1.take L).length = 0)]
      rw [hwl]
    · rw [if_neg (by rw [hwl]; omega : ¬ L - (r1.take L).length = 0)]
      rw [if_pos ?hdrop]
      case hdrop =>
        rw [List.drop_eq_nil_iff, hwl]
        omega
      rw [hwl]
  · intro hwr
    have hpos : 0 < winRest.length := List.length_pos.mpr hwr
    rw [if_neg (by rw [hwl] at hsuf ⊢; omega :
      ¬ L - ((r1.take L).length - winRest.length) = 0)]
    rw [if_neg ?hdrop2]
    case hdrop2 =>
      rw [List.drop_eq_nil_iff]
      rw [hwl] at hsuf ⊢
      omega

/-- C10 witness. -/
theorem C10_take_window_witness :
    readIpfsPayload [36, 18, 1, 171] =
      .ok (.Ipfs ⟨18, [171]⟩, ([18, 1, 171] : List Nat).drop
        (min 36 ([18, 1, 171] : List Nat).length)) :=
  (C10_take_window [36, 18, 1, 171] 36 [18, 1, 171] ⟨18, [171]⟩ []
    (by decide) (by decide)).1 rfl

end Maddr

